import Mathlib

/-!
Verification development for the core of the `bazaar` trading engine
(positions, bundle algebra, wallet discipline, the simulate and
forward-fill adapters, and the `execute` reconciliation step).

Modelling conventions, chosen once for the whole file:

* `rust_decimal::Decimal` values are modelled as exact rationals `ℚ`.
  All quantities appearing in the claims stay far below the 96-bit
  mantissa of `Decimal`, where `Decimal` arithmetic is exact, except
  for explicit rounding (`round_dp`, `round_dp_with_strategy`), which
  is modelled explicitly below.
* `FxHashMap`/`HashMap` fields are modelled as association lists
  `List (κ × α)`.  A Rust hash map never holds a duplicate key; the
  predicate `Bazaar.Bundle.WF` records that fact where a proof needs it.
  `entry(k).or_default() += q` is `Bazaar.aadd`, `insert` is
  `Bazaar.aset`, `get(&k).cloned().unwrap_or_default()` is `Bazaar.aget`.
  Iteration order over a hash map is unspecified in Rust; every
  iteration modelled here either folds a commutative operation or
  touches distinct keys independently, so the list order is innocuous.
* `DateTime<Utc>` instants and `Duration`s are both modelled as `ℤ`
  (a fixed clock unit); only their ordered additive structure is used.
* A Rust `panic!`/failed `assert!`/`unwrap` is modelled by `Option.none`
  (`Option` wraps the result of any function that can panic).
* `Uuid::new_v4()` produces a fresh random identifier; identifiers are
  modelled as `ℕ` and fresh identifiers as `0`, since no claim observes
  them.
-/

namespace Bazaar

/-- Assets are interned strings compared by identity; identity comparison
of interned names coincides with string equality (`src/asset.rs`). -/
abbrev Asset := String

/-- `Symbol` from `src/market.rs`: the only variant is a perpetual future
on an underlying asset. -/
inductive Symbol where
  | Perp (a : Asset)
deriving DecidableEq, Repr

/-! ### Association-list primitives standing in for `HashMap` -/

/-- Hash-map lookup, `map.get(&k).cloned()`. -/
def alookup {κ α : Type} [DecidableEq κ] (k : κ) : List (κ × α) → Option α
  | [] => none
  | (k', v) :: t => if k' = k then some v else alookup k t

/-- Hash-map insert, `map.insert(k, v)`. -/
def aset {κ α : Type} [DecidableEq κ] (k : κ) (v : α) : List (κ × α) → List (κ × α)
  | [] => [(k, v)]
  | (k', v') :: t => if k' = k then (k', v) :: t else (k', v') :: aset k v t

/-- Hash-map read-modify-write, `*map.entry(k).or_default() += q`. -/
def aadd {κ : Type} [DecidableEq κ] (k : κ) (q : ℚ) : List (κ × ℚ) → List (κ × ℚ)
  | [] => [(k, q)]
  | (k', v') :: t => if k' = k then (k', v' + q) :: t else (k', v') :: aadd k q t

/-- Hash-map read with default, `map.get(&k).cloned().unwrap_or_default()`. -/
def aget {κ : Type} [DecidableEq κ] (k : κ) (l : List (κ × ℚ)) : ℚ :=
  (alookup k l).getD 0

/-- Sum of all values an association list carries under one key (equal
to the single value there when the keys are duplicate-free). -/
def keySum {κ : Type} [DecidableEq κ] (s : κ) (l : List (κ × ℚ)) : ℚ :=
  ((l.filter (fun sq => decide (sq.1 = s))).map Prod.snd).sum

/-! ### Bundle and Valuation (`src/exchange/bundle.rs`, `src/exchange/valuation.rs`) -/

/-- `Bundle(FxHashMap<Symbol, Decimal>)`: per-symbol signed quantities. -/
structure Bundle where
  entries : List (Symbol × ℚ)
deriving DecidableEq, Repr

/-- `Valuation(FxHashMap<Symbol, Decimal>)`: per-symbol prices. -/
structure Valuation where
  entries : List (Symbol × ℚ)
deriving DecidableEq, Repr

instance : Inhabited Bundle := ⟨⟨[]⟩⟩
instance : Inhabited Valuation := ⟨⟨[]⟩⟩

/-- The quantity a bundle holds on a symbol; a missing key reads as 0. -/
def Bundle.get (b : Bundle) (s : Symbol) : ℚ := aget s b.entries

/-- The key set of the underlying map. -/
def Bundle.keys (b : Bundle) : List Symbol := b.entries.map Prod.fst

/-- Well-formedness inherited from `FxHashMap`: no duplicate keys. -/
def Bundle.WF (b : Bundle) : Prop := b.keys.Nodup

instance (b : Bundle) : Decidable b.WF := by
  unfold Bundle.WF; infer_instance

/-- `impl Add for &Bundle`: clone the left map, then `entry +=` every
entry of the right map. -/
def Bundle.add (a b : Bundle) : Bundle :=
  ⟨b.entries.foldl (fun acc sq => aadd sq.1 sq.2 acc) a.entries⟩

/-- `impl Sub for &Bundle`: clone the left map, then `entry -= qty`. -/
def Bundle.sub (a b : Bundle) : Bundle :=
  ⟨b.entries.foldl (fun acc sq => aadd sq.1 (-sq.2) acc) a.entries⟩

/-- `Bundle::abs`: absolute value of every entry. -/
def Bundle.abs (b : Bundle) : Bundle :=
  ⟨b.entries.map (fun sq => (sq.1, |sq.2|))⟩

/-- `impl Neg for &Bundle`. -/
def Bundle.neg (b : Bundle) : Bundle :=
  ⟨b.entries.map (fun sq => (sq.1, -sq.2))⟩

/-- Sign of a quantity, `Decimal::signum`. -/
def qsign (q : ℚ) : ℚ := if q < 0 then -1 else if q = 0 then 0 else 1

/-- `Bundle::signum`. -/
def Bundle.signum (b : Bundle) : Bundle :=
  ⟨b.entries.map (fun sq => (sq.1, qsign sq.2))⟩

/-- `impl Mul<&Valuation> for &Bundle`: iterate the valuation's entries,
summing `bundle[s] * price` with a missing bundle key read as 0. -/
def Bundle.mulVal (b : Bundle) (v : Valuation) : ℚ :=
  v.entries.foldl (fun acc sp => acc + aget sp.1 b.entries * sp.2) 0

/-- The price a valuation assigns to a symbol; a missing key reads as 0. -/
def Valuation.get (v : Valuation) (s : Symbol) : ℚ := aget s v.entries

/-- The key set of a valuation. -/
def Valuation.keys (v : Valuation) : List Symbol := v.entries.map Prod.fst

/-- No duplicate keys, inherited from `FxHashMap`. -/
def Valuation.WF (v : Valuation) : Prop := v.keys.Nodup

/-- Rust `==` on `Valuation` (derived `PartialEq` on `FxHashMap`): the
two maps hold exactly the same key-value pairs. -/
def Valuation.mapEqb (v1 v2 : Valuation) : Bool :=
  (v1.keys ++ v2.keys).all
    (fun s => alookup s v1.entries == alookup s v2.entries)

/-! ### Orders (`src/order.rs`) -/

/-- Order side. -/
inductive Side where
  | Buy
  | Sell
deriving DecidableEq, Repr

/-- Order type: limit with a price, or market. -/
inductive OrderType where
  | Limit (price : ℚ)
  | Market
deriving DecidableEq, Repr

/-- `Order` from `src/order.rs`. -/
structure Order where
  order_id : ℕ
  market : Symbol
  side : Side
  size : ℚ
  order_type : OrderType
  reduce_only : Bool
  time : ℤ
  current_price : ℚ
deriving DecidableEq, Repr

/-- `OrderInfo` from `src/order.rs`. -/
structure OrderInfo where
  order_id : ℕ
  market : Symbol
  size : ℚ
  price : ℚ
  time : ℤ
  side : Side
deriving DecidableEq, Repr

/-! ### ValuedBundle (`src/exchange/valued_bundle.rs`) -/

/-- A bundle together with the valuation (and optional time) it was
taken at. -/
structure ValuedBundle where
  bundle : Bundle
  valuation : Valuation
  time : Option ℤ
deriving DecidableEq, Repr

instance : Inhabited ValuedBundle := ⟨⟨default, default, none⟩⟩

/-- `ValuedBundle::value = &bundle * &valuation`. -/
def ValuedBundle.value (vb : ValuedBundle) : ℚ :=
  vb.bundle.mulVal vb.valuation

/-- `ValuedBundle::abs_value`. -/
def ValuedBundle.abs_value (vb : ValuedBundle) : ℚ :=
  vb.bundle.abs.mulVal vb.valuation

/-- `impl Add for &ValuedBundle`: the addition asserts that both
valuations (as maps) and times agree; a failed assertion is `none`. -/
def ValuedBundle.addVB (a b : ValuedBundle) : Option ValuedBundle :=
  if a.valuation.mapEqb b.valuation ∧ a.time = b.time then
    some ⟨a.bundle.add b.bundle, a.valuation, a.time⟩
  else
    none

/-- `ValuedBundle::invert` (used by `Position::stepwise_added_pnl_value`;
its definition is not under `src/`, but the only field the live code
reads from it is `valuation`, which is passed through unchanged; the
bundle is negated, matching the surrounding commented-out iterations). -/
def ValuedBundle.invert (vb : ValuedBundle) : ValuedBundle :=
  ⟨vb.bundle.neg, vb.valuation, vb.time⟩

/-- `impl From<ValuedBundle> for Vec<Order>`: one market order per
symbol with non-zero quantity; sign picks the side, magnitude the size.
Building an order demands the bundle's time (`expect`, hence `Option`). -/
def vbOrdersAux (valuation : Valuation) (time : Option ℤ) :
    List (Symbol × ℚ) → Option (List Order)
  | [] => some []
  | (s, qty) :: t =>
    if qty = 0 then
      vbOrdersAux valuation time t
    else
      match time with
      | none => none
      | some tm =>
        (vbOrdersAux valuation time t).map fun os =>
          { order_id := 0
            market := s
            side := if qty > 0 then Side.Buy else Side.Sell
            size := |qty|
            order_type := OrderType.Market
            reduce_only := false
            time := tm
            current_price := aget s valuation.entries } :: os

/-- `Vec<Order>::from(valued_bundle)`. -/
def ValuedBundle.toOrders (vb : ValuedBundle) : Option (List Order) :=
  vbOrdersAux vb.valuation vb.time vb.bundle.entries

/-! ### Position (`src/exchange/position.rs`) -/

/-- `Position`: the recorded resize deltas, the current exposure at the
latest valuation, and the size the strategy wants next.  The random
`id: Uuid` field is omitted; no claim observes it. -/
structure Position where
  deltas : List ValuedBundle
  current : ValuedBundle
  next_size : Bundle
deriving DecidableEq, Repr

/-- `Position::default()`: empty bundles, no time. -/
instance : Inhabited Position := ⟨⟨[], default, default⟩⟩

/-- `*position.size(symbol) = qty`: set the desired size on one symbol
(`next_size.entry(symbol).or_default()` then assignment). -/
def Position.setSize (p : Position) (s : Symbol) (q : ℚ) : Position :=
  { p with next_size := ⟨aset s q p.next_size.entries⟩ }

/-- `Position::valuate`. -/
def Position.valuate (p : Position) (v : Valuation) (t : ℤ) : Position :=
  { p with current := { p.current with valuation := v, time := some t } }

/-- `Position::close`: zero every entry of `next_size`. -/
def Position.close (p : Position) : Position :=
  { p with next_size := ⟨p.next_size.entries.map (fun sq => (sq.1, (0 : ℚ)))⟩ }

/-- `Position::order`: the delta `next_size - current.bundle` valued at
the position's current valuation and time. -/
def Position.order (p : Position) : ValuedBundle :=
  ⟨p.next_size.sub p.current.bundle, p.current.valuation, p.current.time⟩

/-- `Position::resize`: append the delta to the current bundle, reset
`next_size`, and record the delta. -/
def Position.resize (p : Position) (o : ValuedBundle) : Position :=
  let cur := p.current.bundle.add o.bundle
  { deltas := p.deltas ++ [o]
    current := { p.current with bundle := cur }
    next_size := cur }

/-- `Position::stepwise_delta_sum`: running prefix sums of the deltas. -/
def prefixSums : List ValuedBundle → Bundle → List Bundle
  | [], _ => []
  | d :: t, acc =>
    let acc' := acc.add d.bundle
    acc' :: prefixSums t acc'

/-- The scan in `Position::stepwise_delta_sum`. -/
def Position.stepwise_delta_sum (p : Position) : List Bundle :=
  prefixSums p.deltas ⟨[]⟩

/-- `Position::stepwise_added_delta_value`: per delta, the increase in
absolute exposure priced at that delta's valuation. -/
def Position.stepwise_added_delta_value (p : Position) : List ℚ :=
  (p.deltas.zip (⟨[]⟩ :: p.stepwise_delta_sum)).map fun dz =>
    (((dz.2.add dz.1.bundle).abs.sub dz.2.abs)).mulVal dz.1.valuation

/-- `Position::stepwise_added_pnl_value`: per consecutive pair of
valuations (closing with `current.invert()`), the mark-to-market move of
the running exposure. -/
def Position.stepwise_added_pnl_value (p : Position) : List ℚ :=
  ((p.deltas.zip (p.deltas.drop 1 ++ [p.current.invert])).zip
      p.stepwise_delta_sum).map fun cn =>
    cn.2.mulVal cn.1.2.valuation - cn.2.mulVal cn.1.1.valuation

/-- `Position::pnl`. -/
def Position.pnl (p : Position) : ℚ :=
  p.stepwise_added_pnl_value.sum

/-- `Position::value`. -/
def Position.value (p : Position) : ℚ :=
  p.stepwise_added_pnl_value.sum + p.stepwise_added_delta_value.sum

/-- `Position::relative_pnl`. -/
def Position.relative_pnl (p : Position) : ℚ :=
  let value_sum := (p.stepwise_added_delta_value.map (fun d => |d|)).sum
  let pnl_sum := p.stepwise_added_pnl_value.sum
  if value_sum = 0 then 0 else pnl_sum / value_sum

/-! ### Rounding helpers -/

/-- Floor of a rational as an integer (`num.fdiv den` for a normalised
rational is exactly the floor). -/
def ratFloor (q : ℚ) : ℤ := q.num.fdiv q.den

/-- Ceiling of a rational as an integer. -/
def ratCeil (q : ℚ) : ℤ := -(ratFloor (-q))

/-- `RoundingStrategy::MidpointNearestEven` applied at scale 0
(banker's rounding to an integer), the default of `Decimal::round_dp`. -/
def halfEvenRound (q : ℚ) : ℤ :=
  let n := ratFloor q
  let r := q - n
  if r < 1 / 2 then n
  else if 1 / 2 < r then n + 1
  else if n % 2 = 0 then n else n + 1

/-- `Decimal::round_dp(8)`: round to 8 decimal places, midpoint to even. -/
def round_dp8 (q : ℚ) : ℚ :=
  (halfEvenRound (q * 100000000) : ℚ) / 100000000

/-! ### Markets (`src/market.rs`) and size rounding (`src/exchange.rs`) -/

/-- `MarketInfo` from `src/market.rs`. -/
structure MarketInfo where
  symbol : Symbol
  min_size : ℚ
  size_increment : ℚ
  price_increment : ℚ
  daily_quote_volume : ℚ
deriving DecidableEq, Repr

/-- The market-rule size rounding used by `Position::fit`
(`Exchange::round_size`, `src/exchange.rs` lines 160-168): a zero
increment rounds nothing, otherwise the quantity is rounded to a
multiple of the increment with `RoundingStrategy::ToPositiveInfinity`
(ceiling) applied to the quotient. -/
def MarketInfo.round_size (m : MarketInfo) (size : ℚ) : ℚ :=
  if m.size_increment = 0 then size
  else (ratCeil (size / m.size_increment) : ℚ) * m.size_increment

/-- The per-symbol market metadata an `Exchange` serves through
`Exchange::market(symbol)`; modelled as a total assignment since the
Rust accessor `unwrap`s. -/
def Markets := Symbol → MarketInfo

/-- `Position::fit`: round each ordered quantity to the market's size
increment, snap symbols whose ordered magnitude is below the market's
minimum size back to the current size, and return the quote value of
the rounding difference at the current valuation, together with the
fitted position. -/
def Position.fit (p : Position) (mkts : Markets) : ℚ × Position :=
  let order_bundle := p.next_size.sub p.current.bundle
  -- Round by size increment.
  let rounded1 := order_bundle.entries.foldl
    (fun acc sq =>
      aset sq.1 (aget sq.1 p.current.bundle.entries
        + (mkts sq.1).round_size sq.2) acc)
    p.next_size.entries
  -- Round by min size requirement.
  let rounded2 := order_bundle.entries.foldl
    (fun acc sq =>
      if |sq.2| < (mkts sq.1).min_size then
        aset sq.1 (aget sq.1 p.current.bundle.entries) acc
      else acc)
    rounded1
  let rounded_size : Bundle := ⟨rounded2⟩
  let rounding_diff := (rounded_size.sub p.next_size).abs
  let rounding_value := rounding_diff.mulVal p.current.valuation
  (rounding_value, { p with next_size := rounded_size })

/-! ### Wallet (`src/wallet.rs`) -/

/-- Wallet error kinds. -/
inductive WalletError where
  | NotEnoughTotal
  | NotEnoughReserved
deriving DecidableEq, Repr

/-- `Wallet`: owned (`total`) and uncommitted (`free`) balances per
asset.  `entry(asset).or_default()` reads are modelled value-level: the
phantom zero entry such a read may insert is invisible through the
balance accessors every claim is about. -/
structure Wallet where
  total : List (Asset × ℚ)
  free : List (Asset × ℚ)
deriving DecidableEq, Repr

/-- The empty wallet, `Wallet::new()`. -/
def Wallet.new : Wallet := ⟨[], []⟩

/-- Owned balance of an asset (`total(asset)`, default 0). -/
def Wallet.totalOf (w : Wallet) (a : Asset) : ℚ := aget a w.total

/-- Uncommitted balance of an asset (`free(asset)`/`available`, default 0). -/
def Wallet.freeOf (w : Wallet) (a : Asset) : ℚ := aget a w.free

/-- `Wallet::deposit`: asserts `qty ≥ 0` (else panic, `none`), then adds
`qty` to both balances. -/
def Wallet.deposit (q : ℚ) (a : Asset) (w : Wallet) : Option Wallet :=
  if q < 0 then none
  else some ⟨aadd a q w.total, aadd a q w.free⟩

/-- `Wallet::reserve` (a state transformer returning `Result<(), Error>`):
asserts `qty ≥ 0`; errors with `NotEnoughTotal` when `qty` exceeds the
free balance, leaving the wallet as it was; else removes `qty` from the
free balance. -/
def Wallet.reserve (q : ℚ) (a : Asset) (w : Wallet) :
    Option (Except WalletError Unit × Wallet) :=
  if q < 0 then none
  else some <|
    if q > w.freeOf a then (Except.error WalletError.NotEnoughTotal, w)
    else (Except.ok (), { w with free := aadd a (-q) w.free })

/-- `Wallet::free` (unreserve): asserts `qty ≥ 0`; errors with
`NotEnoughReserved` when `qty` exceeds `total - free`, leaving the
wallet as it was; else returns `qty` to the free balance. -/
def Wallet.unreserve (q : ℚ) (a : Asset) (w : Wallet) :
    Option (Except WalletError Unit × Wallet) :=
  if q < 0 then none
  else some <|
    if q > w.totalOf a - w.freeOf a then (Except.error WalletError.NotEnoughReserved, w)
    else (Except.ok (), { w with free := aadd a q w.free })

/-- `Wallet::free_all`: return the whole reserved amount to `free`. -/
def Wallet.free_all (a : Asset) (w : Wallet) : Wallet :=
  { w with free := aadd a (w.totalOf a - w.freeOf a) w.free }

/-- `Wallet::withdraw`: asserts `qty ≥ 0`; errors with
`NotEnoughReserved` when `qty` exceeds the reserved amount
`total - free`, leaving the wallet as it was; else removes `qty` from
`total`. -/
def Wallet.withdraw (q : ℚ) (a : Asset) (w : Wallet) :
    Option (Except WalletError Unit × Wallet) :=
  if q < 0 then none
  else some <|
    if q > w.totalOf a - w.freeOf a then (Except.error WalletError.NotEnoughReserved, w)
    else (Except.ok (), { w with total := aadd a (-q) w.total })

/-- `Result::unwrap` applied to a wallet call: keep the successful
post-state, panic (`none`) on a wallet error or an earlier panic. -/
def okState : Option (Except WalletError Unit × Wallet) → Option Wallet
  | some (Except.ok _, w') => some w'
  | _ => none

/-- One wallet call, as issued by a caller of the `Wallet` API. -/
inductive WalletOp where
  | deposit (q : ℚ) (a : Asset)
  | reserve (q : ℚ) (a : Asset)
  | unreserve (q : ℚ) (a : Asset)
  | unreserve_all (a : Asset)
  | withdraw (q : ℚ) (a : Asset)
deriving DecidableEq, Repr

/-- Run one wallet call, keeping only the successful outcome (`none` on
a panic or a returned wallet error). -/
def Wallet.applyOp (w : Wallet) : WalletOp → Option Wallet
  | WalletOp.deposit q a => Wallet.deposit q a w
  | WalletOp.reserve q a => okState (Wallet.reserve q a w)
  | WalletOp.unreserve q a => okState (Wallet.unreserve q a w)
  | WalletOp.unreserve_all a => some (Wallet.free_all a w)
  | WalletOp.withdraw q a => okState (Wallet.withdraw q a w)

/-- Run a sequence of wallet calls, all of which must succeed. -/
def Wallet.runOps (w : Wallet) : List WalletOp → Option Wallet
  | [] => some w
  | op :: t => (w.applyOp op).bind (fun w' => w'.runOps t)

/-! ### Exchange order reconciliation (`src/exchange/mod.rs`) -/

/-- `Exchange::coalesce_orders`: sum all per-position order bundles into
one aggregate (`&acc + vb` asserts matching valuations and times). -/
def coalesce_orders (orders : List ValuedBundle) : Option ValuedBundle :=
  match orders with
  | [] => some default
  | o :: rest => rest.foldlM ValuedBundle.addVB o

/-- The reconciliation tail of `Exchange::execute` (lines 427-455 of
`src/exchange/mod.rs`), parameterised by the adjusted per-position order
results that `Exchange::order` produced: resize each open position by
its order result, move the summed position-value change out of (into)
the wallet via `reserve`+`withdraw` (`deposit`), and drop positions
whose value is zero.  The `unwrap`s on the wallet calls panic on a
wallet error, hence the `Option`. -/
def Exchange.execute (ps : List Position) (rs : List ValuedBundle)
    (w : Wallet) (quote : Asset) : Option (List Position × Wallet) :=
  let resized := (ps.zip rs).map (fun pr => pr.1.resize pr.2) ++ ps.drop rs.length
  let value_diff_sum :=
    ((ps.zip rs).map (fun pr => (pr.1.resize pr.2).value - pr.1.value)).sum
  let wStep : Option Wallet :=
    if 0 < value_diff_sum then
      (okState (Wallet.reserve value_diff_sum quote w)).bind
        (fun w1 => okState (Wallet.withdraw value_diff_sum quote w1))
    else if value_diff_sum < 0 then
      Wallet.deposit (-value_diff_sum) quote w
    else some w
  wStep.map fun w2 =>
    (resized.filter (fun p => p.value != 0), w2)

/-! ### Simulate adapter (`src/apis/simulate.rs`) -/

/-- API error kinds (`src/apis/mod.rs`). -/
inductive ApiError where
  | Network
  | Api
deriving DecidableEq, Repr

/-- The state a `Simulate` adapter owns: the simulated wallet behind the
mutex. -/
structure Simulate where
  wallet : Wallet
deriving DecidableEq, Repr

/-- The `OrderInfo` built by `Simulate::place_order`: the requested size
filled in full at `current_price` marked up (Buy) or down (Sell) by the
order fee, rounded to 8 decimal places. -/
def simulatedInfo (fee : ℚ) (order : Order) : OrderInfo :=
  { order_id := order.order_id
    size := order.size
    price := round_dp8 <|
      if order.side = Side.Buy then order.current_price * (1 + fee)
      else order.current_price * (1 - fee)
    time := order.time
    side := order.side
    market := order.market }

/-- `Simulate::place_order`: returns the simulated fill and leaves the
adapter state untouched. -/
def Simulate.place_order (sim : Simulate) (fee : ℚ) (order : Order) :
    Simulate × Except ApiError OrderInfo :=
  (sim, Except.ok (simulatedInfo fee order))

/-! ### ForwardFill adapter (`src/apis/forward_fill.rs`) -/

/-- `Candle` from `src/candle.rs`: close price and volume. -/
structure Candle where
  close : ℚ
  volume : ℚ
deriving DecidableEq, Repr

/-- `CandleKey`: market, start instant and interval of one candle. -/
structure CandleKey where
  market : Symbol
  time : ℤ
  interval : ℤ
deriving DecidableEq, Repr

/-- The forward-fill cache: last seen candle and its time, keyed by
`(symbol, interval)`. -/
def FFCache := List ((Symbol × ℤ) × (ℤ × Candle))

/-- The loop of `ForwardFill::get_candles` over a non-empty inner
result: record every present candle as last-seen; leave recent `None`s
(and, via `break`, everything after them) untouched; replace an old
`None` with the cached candle when the gap is within `max_duration`;
panic (`none`) when the gap is too large; keep the `None` when nothing
was ever seen. -/
def fillLoop (now max_duration : ℤ) (cache : FFCache) :
    List (CandleKey × Option Candle) →
    Option (List (CandleKey × Option Candle) × FFCache)
  | [] => some ([], cache)
  | (k, some c) :: rest =>
    let cache' := aset (k.market, k.interval) (k.time, c) cache
    (fillLoop now max_duration cache' rest).map
      (fun p => ((k, some c) :: p.1, p.2))
  | (k, none) :: rest =>
    if now - k.interval * 2 ≤ k.time then
      -- Do not forward fill candles in the future (`break`).
      some ((k, none) :: rest, cache)
    else
      match alookup (k.market, k.interval) cache with
      | some tc =>
        if k.time - tc.1 ≤ max_duration then
          (fillLoop now max_duration cache rest).map
            (fun p => ((k, some tc.2) :: p.1, p.2))
        else none -- panic: gap too large to forward fill
      | none =>
        (fillLoop now max_duration cache rest).map
          (fun p => ((k, none) :: p.1, p.2))

/-- `ForwardFill::get_candles`, parameterised by the current wall-clock
instant `now`, the cache contents, and the inner adapter's result for
`key`.  Returns the (possibly filled) candle list and the new cache, or
`none` for the fatal gap-too-large panic. -/
def ForwardFill.get_candles (now max_duration : ℤ) (cache : FFCache)
    (key : CandleKey) (inner : List (CandleKey × Option Candle)) :
    Option (List (CandleKey × Option Candle) × FFCache) :=
  if inner.isEmpty then
    if now - key.interval * 2 ≤ key.time then
      -- Do not forward fill candles in the future.
      some ([], cache)
    else
      match alookup (key.market, key.interval) cache with
      | some tc =>
        if key.time - tc.1 ≤ max_duration then
          some ([(key, some tc.2)], cache)
        else none -- panic: gap too large to forward fill
      | none => some ([(key, none)], cache)
  else fillLoop now max_duration cache inner

/-! ### Concrete instances for the claim scenarios and witnesses -/

/-- The `BTC-PERP` symbol used by the concrete scenarios. -/
def btcPerp : Symbol := Symbol.Perp "BTC"

/-- A fresh position on one symbol whose current valuation maps
`BTC-PERP` to 10 000. -/
def scnStart : Position := ⟨[], ⟨⟨[]⟩, ⟨[(btcPerp, 10000)]⟩, none⟩, ⟨[]⟩⟩

/-- The long scenario: set `next_size` to +1.0 and resize with the
resulting order. -/
def scnLongOpened : Position :=
  (scnStart.setSize btcPerp 1).resize (scnStart.setSize btcPerp 1).order

/-- The long scenario revalued at 20 000. -/
def scnLongMarked : Position := scnLongOpened.valuate ⟨[(btcPerp, 20000)]⟩ 1

/-- The short scenario: open size −1.0 at valuation 10 000. -/
def scnShortOpened : Position :=
  (scnStart.setSize btcPerp (-1)).resize (scnStart.setSize btcPerp (-1)).order

/-- The short scenario revalued at 5 000. -/
def scnShortMarked : Position := scnShortOpened.valuate ⟨[(btcPerp, 5000)]⟩ 1

/-- A wallet holding 1 000 quote units, all free. -/
def scnWallet : Wallet := ⟨[("USD", 1000)], [("USD", 1000)]⟩

/-- A position that wants one `BTC-PERP` priced at 10. -/
def scnExecPos : Position := ⟨[], ⟨⟨[]⟩, ⟨[(btcPerp, 10)]⟩, some 0⟩, ⟨[(btcPerp, 1)]⟩⟩

/-- The order result the simulated fill produces for `scnExecPos`. -/
def scnExecRes : ValuedBundle := scnExecPos.order

/-- `scnExecPos` after the resize by `scnExecRes`. -/
def scnExecAfter : Position := scnExecPos.resize scnExecRes

/-- `scnWallet` after paying for `scnExecPos` (value 10). -/
def scnWalletAfter : Wallet := ⟨[("USD", 990)], [("USD", 990)]⟩

/-- A candle used by the forward-fill scenarios. -/
def scnCandle : Candle := ⟨42, 7⟩

/-- A candle key sitting exactly two intervals in the past of `now = 100`. -/
def scnKey : CandleKey := ⟨btcPerp, 80, 10⟩

/-- A forward-fill cache whose last seen `BTC-PERP` candle is at time 70. -/
def scnCache : FFCache := [((btcPerp, 10), (70, scnCandle))]

/-- A candle key well in the past of `now = 100`. -/
def scnOldKey : CandleKey := ⟨btcPerp, 30, 10⟩

/-- The shared valuation of the coalescing scenario. -/
def scnVal : Valuation := ⟨[(btcPerp, 100)]⟩

/-- Order bundle of +10 `BTC-PERP`. -/
def scnVbPlus10 : ValuedBundle := ⟨⟨[(btcPerp, 10)]⟩, scnVal, some 0⟩

/-- Order bundle of +5 `BTC-PERP`. -/
def scnVbPlus5 : ValuedBundle := ⟨⟨[(btcPerp, 5)]⟩, scnVal, some 0⟩

/-- Order bundle of −15 `BTC-PERP`. -/
def scnVbMinus15 : ValuedBundle := ⟨⟨[(btcPerp, -15)]⟩, scnVal, some 0⟩

/-- A bundle used by the algebra witness. -/
def scnBundleA : Bundle := ⟨[(btcPerp, 3), (Symbol.Perp "ETH", -2)]⟩

/-- A second bundle used by the algebra witness. -/
def scnBundleB : Bundle := ⟨[(Symbol.Perp "ETH", 5), (Symbol.Perp "SOL", 1)]⟩

/-- A valuation used by the algebra witness. -/
def scnValuationV : Valuation := ⟨[(btcPerp, 10), (Symbol.Perp "SOL", 4)]⟩

/-- Market metadata for the fit scenarios: minimum size 6/10, size
increment 1/2. -/
def scnMarkets : Markets := fun s => ⟨s, 6/10, 1/2, 0, 0⟩

/-- A position ordering −7/10 `BTC-PERP` from a flat book. -/
def scnFitPos : Position := ⟨[], ⟨⟨[]⟩, ⟨[(btcPerp, 100)]⟩, some 0⟩, ⟨[(btcPerp, -7/10)]⟩⟩

/-- A successful wallet call sequence used by the invariant witness. -/
def scnOps : List WalletOp :=
  [WalletOp.deposit 10 "USD", WalletOp.reserve 5 "USD", WalletOp.withdraw 3 "USD"]

/-- The wallet that `scnOps` produces from the empty wallet. -/
def scnOpsFinal : Wallet := ⟨[("USD", 7)], [("USD", 5)]⟩

/-- A market order used by the simulate witnesses. -/
def scnOrder : Order :=
  ⟨5, btcPerp, Side.Buy, 1/100, OrderType.Market, false, 0, 10000⟩

/-! ## Lemmas about the association-list primitives -/

theorem alookup_aadd {κ : Type} [DecidableEq κ] (s k : κ) (q : ℚ)
    (l : List (κ × ℚ)) :
    alookup s (aadd k q l) =
      if k = s then some (aget s l + q) else alookup s l := by
  induction l with
  | nil => by_cases h : k = s <;> simp [aadd, alookup, aget, h]
  | cons hd t ih =>
    obtain ⟨k', v'⟩ := hd
    by_cases hk : k' = k
    · subst hk
      by_cases hs : k' = s <;> simp [aadd, alookup, aget, hs]
    · by_cases hs : k' = s
      · subst hs
        have hks : ¬ k = k' := fun h => hk h.symm
        simp [aadd, alookup, aget, hk, hks]
      · simp [aadd, alookup, aget, hk, hs, ih]

theorem aget_aadd {κ : Type} [DecidableEq κ] (s k : κ) (q : ℚ)
    (l : List (κ × ℚ)) :
    aget s (aadd k q l) = aget s l + if k = s then q else 0 := by
  by_cases h : k = s <;> simp [aget, alookup_aadd, h]

theorem alookup_aset {κ α : Type} [DecidableEq κ] (s k : κ) (v : α)
    (l : List (κ × α)) :
    alookup s (aset k v l) = if k = s then some v else alookup s l := by
  induction l with
  | nil => by_cases h : k = s <;> simp [aset, alookup, h]
  | cons hd t ih =>
    obtain ⟨k', v'⟩ := hd
    by_cases hk : k' = k
    · subst hk
      by_cases hs : k' = s <;> simp [aset, alookup, hs]
    · by_cases hs : k' = s
      · subst hs
        have hks : ¬ k = k' := fun h => hk h.symm
        simp [aset, alookup, hk, hks]
      · simp [aset, alookup, hk, hs, ih]

theorem alookup_eq_none_of_not_mem {κ α : Type} [DecidableEq κ] (s : κ)
    (l : List (κ × α)) (h : s ∉ l.map Prod.fst) : alookup s l = none := by
  induction l with
  | nil => simp [alookup]
  | cons hd t ih =>
    simp only [List.map_cons, List.mem_cons] at h
    push_neg at h
    have h1 : ¬ hd.1 = s := fun he => h.1 he.symm
    simp [alookup, h1, ih h.2]

theorem alookup_of_mem_nodup {κ α : Type} [DecidableEq κ] (s : κ) (p : α)
    (l : List (κ × α)) (hn : (l.map Prod.fst).Nodup) (hm : (s, p) ∈ l) :
    alookup s l = some p := by
  induction l with
  | nil => simp at hm
  | cons hd t ih =>
    simp only [List.map_cons, List.nodup_cons] at hn
    rcases List.mem_cons.mp hm with he | ht
    · subst he; simp [alookup]
    · have hne : ¬ hd.1 = s := by
        intro he
        exact hn.1 (he ▸ List.mem_map.mpr ⟨(s, p), ht, rfl⟩)
      simp [alookup, hne, ih hn.2 ht]

theorem keySum_eq_zero_of_not_mem {κ : Type} [DecidableEq κ] (s : κ)
    (l : List (κ × ℚ)) (h : s ∉ l.map Prod.fst) : keySum s l = 0 := by
  induction l with
  | nil => simp [keySum]
  | cons hd t ih =>
    simp only [List.map_cons, List.mem_cons] at h
    push_neg at h
    have h1 : ¬ hd.1 = s := fun he => h.1 he.symm
    simpa [keySum, h1] using ih h.2

theorem keySum_of_nodup {κ : Type} [DecidableEq κ] (s : κ)
    (l : List (κ × ℚ)) (hn : (l.map Prod.fst).Nodup) :
    keySum s l = aget s l := by
  induction l with
  | nil => simp [keySum, aget, alookup]
  | cons hd t ih =>
    simp only [List.map_cons, List.nodup_cons] at hn
    by_cases h1 : hd.1 = s
    · have ht : s ∉ t.map Prod.fst := h1 ▸ hn.1
      have : keySum s t = 0 := keySum_eq_zero_of_not_mem s t ht
      simp [keySum, aget, alookup, h1, List.filter_cons] at this ⊢
      simpa [keySum, alookup_eq_none_of_not_mem s t ht] using this
    · simpa [keySum, aget, alookup, h1, List.filter_cons] using ih hn.2

theorem aget_foldl_aadd {κ : Type} [DecidableEq κ] (g : κ × ℚ → ℚ) (s : κ)
    (m : List (κ × ℚ)) :
    ∀ init : List (κ × ℚ),
      aget s (m.foldl (fun acc sq => aadd sq.1 (g sq) acc) init) =
        aget s init + ((m.filter (fun sq => decide (sq.1 = s))).map g).sum := by
  induction m with
  | nil => intro init; simp
  | cons hd t ih =>
    intro init
    by_cases h1 : hd.1 = s
    · simp only [List.foldl_cons, ih, aget_aadd, h1, List.filter_cons]
      simp [h1]
      ring
    · simp only [List.foldl_cons, ih, aget_aadd, h1, List.filter_cons]
      simp [h1]

/-! ## Lemmas about the Bundle algebra -/

theorem Bundle.get_add (a b : Bundle) (s : Symbol) :
    (a.add b).get s = a.get s + keySum s b.entries := by
  have h := aget_foldl_aadd (fun sq : Symbol × ℚ => sq.2) s b.entries a.entries
  simpa [Bundle.add, Bundle.get, keySum] using h

theorem Bundle.get_sub (a b : Bundle) (s : Symbol) :
    (a.sub b).get s = a.get s - keySum s b.entries := by
  have h := aget_foldl_aadd (fun sq : Symbol × ℚ => -sq.2) s b.entries a.entries
  have hneg :
      ((b.entries.filter (fun sq => decide (sq.1 = s))).map
        (fun sq : Symbol × ℚ => -sq.2)).sum =
      -((b.entries.filter (fun sq => decide (sq.1 = s))).map Prod.snd).sum := by
    induction b.entries.filter (fun sq => decide (sq.1 = s)) with
    | nil => simp
    | cons hd t ih => simp [ih]; ring
  simp only [Bundle.sub, Bundle.get, keySum] at *
  rw [h, hneg]
  ring

theorem foldl_add_eq_sum {α : Type} (f : α → ℚ) (l : List α) :
    ∀ acc : ℚ, l.foldl (fun a x => a + f x) acc = acc + (l.map f).sum := by
  induction l with
  | nil => intro acc; simp
  | cons hd t ih => intro acc; simp [ih]; ring

theorem Bundle.mulVal_eq_sum (b : Bundle) (v : Valuation) :
    b.mulVal v = (v.entries.map (fun sp => aget sp.1 b.entries * sp.2)).sum := by
  simpa [Bundle.mulVal] using
    foldl_add_eq_sum (fun sp : Symbol × ℚ => aget sp.1 b.entries * sp.2) v.entries 0

theorem Bundle.mulVal_eq_finsum (b : Bundle) (v : Valuation) (hv : v.WF) :
    b.mulVal v =
      ((b.keys ++ v.keys).toFinset).sum (fun t => b.get t * v.get t) := by
  rw [Bundle.mulVal_eq_sum]
  have hmap : v.entries.map (fun sp => aget sp.1 b.entries * sp.2) =
      v.entries.map (fun sp => b.get sp.1 * v.get sp.1) := by
    apply List.map_congr_left
    intro sp hsp
    have : alookup sp.1 v.entries = some sp.2 :=
      alookup_of_mem_nodup sp.1 sp.2 v.entries hv hsp
    simp [Bundle.get, Valuation.get, aget, this]
  rw [hmap]
  have hkeys : v.entries.map (fun sp => b.get sp.1 * v.get sp.1) =
      v.keys.map (fun t => b.get t * v.get t) := by
    simp [Valuation.keys, List.map_map, Function.comp_def]
  rw [hkeys]
  rw [← List.sum_toFinset _ hv]
  apply Finset.sum_subset
  · intro t ht
    simp only [List.toFinset_append, Finset.mem_union]
    exact Or.inr ht
  · intro t _ htv
    have : alookup t v.entries = none := by
      apply alookup_eq_none_of_not_mem
      intro hmem
      exact htv (List.mem_toFinset.mpr hmem)
    simp [Valuation.get, aget, this]

/-- C7: Bundle algebra over the hash-map representation, quantities of
missing keys reading as 0: `(a + b) − b` agrees with `a` on every
symbol, `|−a| = |a|` holds as map equality, and the bundle-valuation
product is the sum over all involved symbols of quantity times price. -/
theorem claim_C7 (a b : Bundle) (v : Valuation) (s : Symbol) (hv : v.WF) :
    ((a.add b).sub b).get s = a.get s
    ∧ a.neg.abs = a.abs
    ∧ b.mulVal v =
        ((b.keys ++ v.keys).toFinset).sum (fun t => b.get t * v.get t) := by
  refine ⟨?_, ?_, Bundle.mulVal_eq_finsum b v hv⟩
  · rw [Bundle.get_sub, Bundle.get_add]; ring
  · simp [Bundle.neg, Bundle.abs, List.map_map, Function.comp_def, abs_neg]

/-- Instantiation of `claim_C7` at concrete bundles and a concrete
well-formed valuation. -/
theorem claim_C7_witness :
    scnValuationV.WF
    ∧ (((scnBundleA.add scnBundleB).sub scnBundleB).get (Symbol.Perp "ETH")
        = scnBundleA.get (Symbol.Perp "ETH")
      ∧ scnBundleA.neg.abs = scnBundleA.abs
      ∧ scnBundleB.mulVal scnValuationV =
          ((scnBundleB.keys ++ scnValuationV.keys).toFinset).sum
            (fun t => scnBundleB.get t * scnValuationV.get t)) :=
  ⟨by simp [Valuation.WF, Valuation.keys, scnValuationV, btcPerp],
    claim_C7 scnBundleA scnBundleB scnValuationV (Symbol.Perp "ETH")
      (by simp [Valuation.WF, Valuation.keys, scnValuationV, btcPerp])⟩

/-! ## Position PnL scenarios -/

/-- C1: a fresh single-symbol position opened long +1.0 at valuation
10 000 and revalued at 20 000 has `pnl = 10 000`, `value = 20 000` and
`relative_pnl = 1`; opened short −1.0 at 10 000 and revalued at 5 000 it
has `pnl = 5 000`, `value = 15 000` and `relative_pnl = 1/2`. -/
theorem claim_C1 :
    scnLongMarked.pnl = 10000
    ∧ scnLongMarked.value = 20000
    ∧ scnLongMarked.relative_pnl = 1
    ∧ scnShortMarked.pnl = 5000
    ∧ scnShortMarked.value = 15000
    ∧ scnShortMarked.relative_pnl = 1/2 := by
  norm_num [scnLongMarked, scnShortMarked, scnLongOpened, scnShortOpened,
    scnStart, btcPerp, Position.pnl, Position.value, Position.relative_pnl,
    Position.stepwise_added_pnl_value, Position.stepwise_added_delta_value,
    Position.stepwise_delta_sum, prefixSums, Position.setSize, Position.resize,
    Position.valuate, Position.order, ValuedBundle.invert,
    Bundle.add, Bundle.sub, Bundle.abs, Bundle.neg, Bundle.mulVal,
    aset, aadd, aget, alookup]

/-! ## Wallet lemmas and claims -/

/-- C3: for every non-negative quantity, `reserve` fails with
`NotEnoughTotal` exactly when the quantity exceeds the asset's free
balance and otherwise lowers `free` by it, `withdraw` fails exactly when
the quantity exceeds the reserved amount `total − free` and otherwise
lowers `total` by it, and a failing call leaves both balances of the
asset untouched. -/
theorem claim_C3 (w : Wallet) (a : Asset) (q : ℚ) (hq : 0 ≤ q) :
    (∀ r w', Wallet.reserve q a w = some (r, w') →
      ((r = Except.error WalletError.NotEnoughTotal ↔ w.freeOf a < q)
        ∧ (r = Except.ok () → w'.freeOf a = w.freeOf a - q)
        ∧ (∀ e, r = Except.error e → w' = w)))
    ∧ (∀ r w', Wallet.withdraw q a w = some (r, w') →
      (((∃ e, r = Except.error e) ↔ w.totalOf a - w.freeOf a < q)
        ∧ (r = Except.ok () → w'.totalOf a = w.totalOf a - q)
        ∧ (∀ e, r = Except.error e → w' = w))) := by
  have hq' : ¬ q < 0 := not_lt.mpr hq
  constructor
  · intro r w' h
    rw [Wallet.reserve, if_neg hq'] at h
    split_ifs at h with hf
    · simp only [Option.some.injEq, Prod.mk.injEq] at h
      obtain ⟨h1, h2⟩ := h
      subst h1; subst h2
      exact ⟨iff_of_true rfl hf, fun hok => Except.noConfusion hok,
        fun _ _ => rfl⟩
    · simp only [Option.some.injEq, Prod.mk.injEq] at h
      obtain ⟨h1, h2⟩ := h
      subst h1; subst h2
      refine ⟨iff_of_false (fun hcon => Except.noConfusion hcon) hf, ?_, ?_⟩
      · intro _
        simp [Wallet.freeOf, aget_aadd, sub_eq_add_neg]
      · intro e he
        exact Except.noConfusion he
  · intro r w' h
    rw [Wallet.withdraw, if_neg hq'] at h
    split_ifs at h with hf
    · simp only [Option.some.injEq, Prod.mk.injEq] at h
      obtain ⟨h1, h2⟩ := h
      subst h1; subst h2
      exact ⟨iff_of_true ⟨_, rfl⟩ hf, fun hok => Except.noConfusion hok,
        fun _ _ => rfl⟩
    · simp only [Option.some.injEq, Prod.mk.injEq] at h
      obtain ⟨h1, h2⟩ := h
      subst h1; subst h2
      refine ⟨iff_of_false ?_ hf, ?_, ?_⟩
      · rintro ⟨e, he⟩
        exact Except.noConfusion he
      · intro _
        simp [Wallet.totalOf, aget_aadd, sub_eq_add_neg]
      · intro e he
        exact Except.noConfusion he

/-- Instantiation of `claim_C3` at a concrete wallet: reserving 200
against a free balance of 150 fails, reserving within the balance
succeeds and lowers `free`. -/
theorem claim_C3_witness :
    (0 : ℚ) ≤ 100
    ∧ (∀ r w', Wallet.reserve 100 "USD" ⟨[("USD", 150)], [("USD", 150)]⟩
          = some (r, w') →
        ((r = Except.error WalletError.NotEnoughTotal
            ↔ Wallet.freeOf ⟨[("USD", 150)], [("USD", 150)]⟩ "USD" < 100)
          ∧ (r = Except.ok () →
              w'.freeOf "USD"
                = Wallet.freeOf ⟨[("USD", 150)], [("USD", 150)]⟩ "USD" - 100)
          ∧ (∀ e, r = Except.error e → w' = ⟨[("USD", 150)], [("USD", 150)]⟩))) :=
  ⟨by norm_num,
    (claim_C3 ⟨[("USD", 150)], [("USD", 150)]⟩ "USD" 100 (by norm_num)).1⟩

/-- Every successful wallet call keeps the reserved amount
`total − free` of every asset non-negative. -/
theorem wallet_applyOp_reserved_nonneg (w w' : Wallet) (op : WalletOp)
    (hw : ∀ a, 0 ≤ w.totalOf a - w.freeOf a)
    (h : w.applyOp op = some w') :
    ∀ a, 0 ≤ w'.totalOf a - w'.freeOf a := by
  intro a
  have hwa := hw a
  simp only [Wallet.totalOf, Wallet.freeOf] at hwa
  cases op with
  | deposit q b =>
    rw [Wallet.applyOp, Wallet.deposit] at h
    split_ifs at h with hneg
    simp only [Option.some.injEq] at h
    subst h
    simp only [Wallet.totalOf, Wallet.freeOf, aget_aadd]
    split_ifs with hb <;> linarith
  | reserve q b =>
    rw [Wallet.applyOp, Wallet.reserve] at h
    split_ifs at h with hneg hover
    · simp [okState] at h
    · simp [okState] at h
    · simp only [okState, Option.some.injEq] at h
      subst h
      have hq : 0 ≤ q := not_lt.mp hneg
      simp only [Wallet.totalOf, Wallet.freeOf, aget_aadd]
      split_ifs with hb <;> linarith
  | unreserve q b =>
    rw [Wallet.applyOp, Wallet.unreserve] at h
    split_ifs at h with hneg hover
    · simp [okState] at h
    · simp [okState] at h
    · simp only [okState, Option.some.injEq] at h
      subst h
      have hover' : q ≤ w.totalOf b - w.freeOf b := not_lt.mp hover
      simp only [Wallet.totalOf, Wallet.freeOf] at hover'
      simp only [Wallet.totalOf, Wallet.freeOf, aget_aadd]
      split_ifs with hb
      · subst hb; linarith
      · linarith
  | unreserve_all b =>
    rw [Wallet.applyOp] at h
    simp only [Option.some.injEq] at h
    subst h
    simp only [Wallet.free_all, Wallet.totalOf, Wallet.freeOf, aget_aadd]
    split_ifs with hb
    · subst hb; linarith
    · linarith
  | withdraw q b =>
    rw [Wallet.applyOp, Wallet.withdraw] at h
    split_ifs at h with hneg hover
    · simp [okState] at h
    · simp [okState] at h
    · simp only [okState, Option.some.injEq] at h
      subst h
      have hover' : q ≤ w.totalOf b - w.freeOf b := not_lt.mp hover
      simp only [Wallet.totalOf, Wallet.freeOf] at hover'
      simp only [Wallet.totalOf, Wallet.freeOf, aget_aadd]
      split_ifs with hb
      · subst hb; linarith
      · linarith

/-- Reserved amounts stay non-negative along any successful run. -/
theorem wallet_runOps_reserved_nonneg (ops : List WalletOp) :
    ∀ (w w' : Wallet), (∀ a, 0 ≤ w.totalOf a - w.freeOf a) →
      w.runOps ops = some w' → ∀ a, 0 ≤ w'.totalOf a - w'.freeOf a := by
  induction ops with
  | nil =>
    intro w w' hw h
    rw [Wallet.runOps] at h
    simp only [Option.some.injEq] at h
    subst h
    exact hw
  | cons op t ih =>
    intro w w' hw h
    rw [Wallet.runOps] at h
    cases hstep : w.applyOp op with
    | none => rw [hstep] at h; simp at h
    | some w1 =>
      rw [hstep] at h
      simp only [Option.some_bind] at h
      exact ih w1 w' (wallet_applyOp_reserved_nonneg w w1 op hw hstep) h

/-- C9: starting from the empty wallet, every sequence of successful
wallet operations keeps each asset's reserved amount `total − free`
non-negative. -/
theorem claim_C9 (ops : List WalletOp) (w' : Wallet)
    (h : Wallet.new.runOps ops = some w') :
    ∀ a, 0 ≤ w'.totalOf a - w'.freeOf a :=
  wallet_runOps_reserved_nonneg ops Wallet.new w'
    (fun a => by simp [Wallet.new, Wallet.totalOf, Wallet.freeOf, aget, alookup])
    h

/-- Instantiation of `claim_C9` on a concrete deposit/reserve/withdraw
run. -/
theorem claim_C9_witness :
    Wallet.new.runOps scnOps = some scnOpsFinal
    ∧ 0 ≤ scnOpsFinal.totalOf "USD" - scnOpsFinal.freeOf "USD" := by
  have h : Wallet.new.runOps scnOps = some scnOpsFinal := by
    norm_num [Wallet.new, Wallet.runOps, Wallet.applyOp, Wallet.deposit,
      Wallet.reserve, Wallet.withdraw, Wallet.totalOf, Wallet.freeOf, okState,
      scnOps, scnOpsFinal, aadd, aget, alookup]
  exact ⟨h, claim_C9 scnOps scnOpsFinal h "USD"⟩

/-! ## Simulate adapter claims -/

/-- C5: `Simulate::place_order` fills the requested size in full at
`current_price × (1 + fee)` for a buy and `current_price × (1 − fee)`
for a sell, rounded to 8 decimal places (so the price is an integer
multiple of 10⁻⁸). -/
theorem claim_C5 (sim : Simulate) (fee : ℚ) (order : Order) :
    ∃ info, (sim.place_order fee order).2 = Except.ok info
      ∧ info.size = order.size
      ∧ (order.side = Side.Buy →
          info.price = round_dp8 (order.current_price * (1 + fee)))
      ∧ (order.side = Side.Sell →
          info.price = round_dp8 (order.current_price * (1 - fee)))
      ∧ ∃ n : ℤ, info.price = (n : ℚ) / 100000000 := by
  refine ⟨simulatedInfo fee order, rfl, rfl, ?_, ?_, ?_⟩
  · intro h
    simp [simulatedInfo, h]
  · intro h
    simp [simulatedInfo, h]
  · exact ⟨halfEvenRound ((if order.side = Side.Buy then
        order.current_price * (1 + fee)
      else order.current_price * (1 - fee)) * 100000000), rfl⟩

/-- C10: `Simulate::place_order` never fails and never touches the
simulated wallet: there is no balance or reservation check, so an order
of any size on any side succeeds against any wallet, including one with
a zero quote balance. -/
theorem claim_C10 (sim : Simulate) (fee : ℚ) (order : Order) :
    (sim.place_order fee order).1 = sim
    ∧ ∃ info, (sim.place_order fee order).2 = Except.ok info
    ∧ info.size = order.size :=
  ⟨rfl, simulatedInfo fee order, rfl, rfl⟩

/-! ## Coalescing lemmas and claim -/

theorem keys_aadd {κ : Type} [DecidableEq κ] (k : κ) (q : ℚ)
    (l : List (κ × ℚ)) :
    (aadd k q l).map Prod.fst =
      if k ∈ l.map Prod.fst then l.map Prod.fst else l.map Prod.fst ++ [k] := by
  induction l with
  | nil => simp [aadd]
  | cons hd t ih =>
    by_cases hk : hd.1 = k
    · simp [aadd, hk]
    · have : ¬ k = hd.1 := fun h => hk h.symm
      simp only [aadd, hk, if_false, List.map_cons, List.mem_cons, this,
        false_or, ih]
      split_ifs <;> simp

theorem nodup_keys_aadd {κ : Type} [DecidableEq κ] (k : κ) (q : ℚ)
    (l : List (κ × ℚ)) (h : (l.map Prod.fst).Nodup) :
    ((aadd k q l).map Prod.fst).Nodup := by
  rw [keys_aadd]
  split_ifs with hmem
  · exact h
  · exact h.append (List.nodup_singleton k)
      (by simpa [List.disjoint_singleton] using hmem)

theorem nodup_keys_foldl_aadd {κ : Type} [DecidableEq κ]
    (g : κ × ℚ → ℚ) (m : List (κ × ℚ)) :
    ∀ init : List (κ × ℚ), (init.map Prod.fst).Nodup →
      (((m.foldl (fun acc sq => aadd sq.1 (g sq) acc) init)).map Prod.fst).Nodup := by
  induction m with
  | nil => intro init h; simpa using h
  | cons hd t ih =>
    intro init h
    exact ih (aadd hd.1 (g hd) init) (nodup_keys_aadd hd.1 (g hd) init h)

theorem Bundle.add_wf (a b : Bundle) (h : a.WF) : (a.add b).WF :=
  nodup_keys_foldl_aadd (fun sq => sq.2) b.entries a.entries h

theorem Bundle.sub_wf (a b : Bundle) (h : a.WF) : (a.sub b).WF :=
  nodup_keys_foldl_aadd (fun sq => -sq.2) b.entries a.entries h

theorem alookup_foldl_aadd_isSome {κ : Type} [DecidableEq κ]
    (g : κ × ℚ → ℚ) (s : κ) (m : List (κ × ℚ)) :
    ∀ init : List (κ × ℚ), (alookup s init).isSome →
      (alookup s (m.foldl (fun acc sq => aadd sq.1 (g sq) acc) init)).isSome := by
  induction m with
  | nil => intro init h; simpa using h
  | cons hd t ih =>
    intro init h
    apply ih
    rw [alookup_aadd]
    split_ifs with hk
    · simp
    · exact h

theorem addVB_some (a b agg : ValuedBundle) (h : a.addVB b = some agg) :
    agg.bundle = a.bundle.add b.bundle ∧ agg.valuation = a.valuation
      ∧ agg.time = a.time := by
  rw [ValuedBundle.addVB] at h
  split_ifs at h
  simp only [Option.some.injEq] at h
  subst h
  exact ⟨rfl, rfl, rfl⟩

theorem coalesce_fold (s : Symbol) (rest : List ValuedBundle) :
    ∀ acc agg : ValuedBundle, rest.foldlM ValuedBundle.addVB acc = some agg →
      agg.bundle.get s =
          acc.bundle.get s + (rest.map (fun vb => keySum s vb.bundle.entries)).sum
        ∧ (acc.bundle.WF → agg.bundle.WF)
        ∧ ((alookup s acc.bundle.entries).isSome →
            (alookup s agg.bundle.entries).isSome) := by
  induction rest with
  | nil =>
    intro acc agg h
    simp only [List.foldlM_nil, Option.pure_def, Option.some.injEq] at h
    subst h
    simp
  | cons vb t ih =>
    intro acc agg h
    simp only [List.foldlM_cons] at h
    cases hstep : acc.addVB vb with
    | none => rw [hstep] at h; exact Option.noConfusion h
    | some acc' =>
      rw [hstep] at h
      simp only [Option.bind_eq_bind, Option.some_bind] at h
      obtain ⟨hb, _, _⟩ := addVB_some acc vb acc' hstep
      obtain ⟨ih1, ih2, ih3⟩ := ih acc' agg h
      refine ⟨?_, ?_, ?_⟩
      · rw [ih1, hb, Bundle.get_add]
        simp only [List.map_cons, List.sum_cons]
        ring
      · intro hwf
        exact ih2 (hb ▸ Bundle.add_wf acc.bundle vb.bundle hwf)
      · intro hsome
        apply ih3
        rw [hb]
        exact alookup_foldl_aadd_isSome (fun sq => sq.2) s vb.bundle.entries
          acc.bundle.entries hsome

theorem vbOrders_market_ne (val : Valuation) (tm : Option ℤ) (s : Symbol) :
    ∀ (l : List (Symbol × ℚ)) (os : List Order),
      (∀ q, (s, q) ∈ l → q = 0) → vbOrdersAux val tm l = some os →
        ∀ o ∈ os, o.market ≠ s := by
  intro l
  induction l with
  | nil =>
    intro os _ h o ho
    simp only [vbOrdersAux] at h
    simp only [Option.some.injEq] at h
    subst h
    simp at ho
  | cons hd t ih =>
    intro os hl h o ho
    simp only [vbOrdersAux] at h
    by_cases hq : hd.2 = 0
    · rw [if_pos hq] at h
      exact ih os (fun q hq' => hl q (List.mem_cons_of_mem hd hq')) h o ho
    · rw [if_neg hq] at h
      cases tm with
      | none => exact Option.noConfusion h
      | some tmv =>
        dsimp only at h
        cases hrec : vbOrdersAux val (some tmv) t with
        | none => rw [hrec] at h; exact Option.noConfusion h
        | some os' =>
          rw [hrec] at h
          simp only [Option.map_some', Option.some.injEq] at h
          subst h
          rcases List.mem_cons.mp ho with he | ht
          · subst he
            intro hmk
            simp only at hmk
            exact hq (hl hd.2 (hmk ▸ List.mem_cons_self hd t))
          · exact ih os' (fun q hq' => hl q (List.mem_cons_of_mem hd hq')) hrec o ht

/-- C6: when the per-position order bundles share the Exchange's
valuation and time and their quantities on a symbol sum to zero, the
coalesced aggregate carries quantity zero on that symbol (an explicit
zero entry whenever the first bundle mentions the symbol) and the
conversion of the aggregate to market orders emits no order for it. -/
theorem claim_C6 (orders : List ValuedBundle) (o1 : ValuedBundle)
    (rest : List ValuedBundle) (s : Symbol) (agg : ValuedBundle)
    (horders : orders = o1 :: rest)
    (hwf : ∀ vb ∈ orders, vb.bundle.WF)
    (hsum : (orders.map (fun vb => vb.bundle.get s)).sum = 0)
    (hagg : coalesce_orders orders = some agg) :
    agg.bundle.get s = 0
    ∧ ((alookup s o1.bundle.entries).isSome →
        alookup s agg.bundle.entries = some 0)
    ∧ (∀ os, agg.toOrders = some os → ∀ o ∈ os, o.market ≠ s) := by
  subst horders
  rw [coalesce_orders] at hagg
  obtain ⟨h1, h2, h3⟩ := coalesce_fold s rest o1 agg hagg
  have hks : ∀ vb ∈ (o1 :: rest), keySum s vb.bundle.entries = vb.bundle.get s := by
    intro vb hvb
    exact (keySum_of_nodup s vb.bundle.entries (hwf vb hvb))
  have hrest : (rest.map (fun vb => keySum s vb.bundle.entries)).sum =
      (rest.map (fun vb => vb.bundle.get s)).sum := by
    apply congrArg List.sum
    apply List.map_congr_left
    intro vb hvb
    exact hks vb (List.mem_cons_of_mem o1 hvb)
  have hget : agg.bundle.get s = 0 := by
    rw [h1, hrest]
    simpa using hsum
  have hwfagg : agg.bundle.WF := h2 (hwf o1 (List.mem_cons_self o1 rest))
  refine ⟨hget, ?_, ?_⟩
  · intro hsome
    have := h3 hsome
    cases hcase : alookup s agg.bundle.entries with
    | none => rw [hcase] at this; simp at this
    | some q =>
      have hq0 : q = 0 := by
        have h0 := hget
        simp only [Bundle.get, aget, hcase, Option.getD_some] at h0
        exact h0
      rw [hq0]
  · intro os hos o ho
    apply vbOrders_market_ne agg.valuation agg.time s agg.bundle.entries os ?_ hos o ho
    intro q hq
    have hl : alookup s agg.bundle.entries = some q :=
      alookup_of_mem_nodup s q agg.bundle.entries hwfagg hq
    have h0 := hget
    simp only [Bundle.get, aget, hl, Option.getD_some] at h0
    exact h0

/-- Instantiation of `claim_C6` on the +10/+5/−15 scenario. -/
theorem claim_C6_witness :
    ((([scnVbPlus10, scnVbPlus5, scnVbMinus15] :
          List ValuedBundle).map (fun vb => vb.bundle.get btcPerp)).sum = 0
      ∧ coalesce_orders [scnVbPlus10, scnVbPlus5, scnVbMinus15]
          = some ⟨⟨[(btcPerp, 0)]⟩, scnVal, some 0⟩)
    ∧ (⟨⟨[(btcPerp, 0)]⟩, scnVal, some 0⟩ : ValuedBundle).bundle.get btcPerp = 0
    ∧ (∀ os, (⟨⟨[(btcPerp, 0)]⟩, scnVal, some 0⟩ : ValuedBundle).toOrders = some os →
        ∀ o ∈ os, o.market ≠ btcPerp) := by
  have hsum : (([scnVbPlus10, scnVbPlus5, scnVbMinus15] :
      List ValuedBundle).map (fun vb => vb.bundle.get btcPerp)).sum = 0 := by
    norm_num [scnVbPlus10, scnVbPlus5, scnVbMinus15, Bundle.get, aget, alookup]
  have hagg : coalesce_orders [scnVbPlus10, scnVbPlus5, scnVbMinus15]
      = some ⟨⟨[(btcPerp, 0)]⟩, scnVal, some 0⟩ := by
    norm_num [coalesce_orders, List.foldlM, ValuedBundle.addVB,
      Valuation.mapEqb, Valuation.keys, scnVbPlus10, scnVbPlus5, scnVbMinus15,
      scnVal, Bundle.add, aadd, alookup]
  have h := claim_C6 [scnVbPlus10, scnVbPlus5, scnVbMinus15] scnVbPlus10
    [scnVbPlus5, scnVbMinus15] btcPerp ⟨⟨[(btcPerp, 0)]⟩, scnVal, some 0⟩ rfl
    (by intro vb hvb
        simp only [List.mem_cons, List.not_mem_nil, or_false] at hvb
        rcases hvb with rfl | rfl | rfl <;>
          simp [scnVbPlus10, scnVbPlus5, scnVbMinus15, Bundle.WF, Bundle.keys])
    hsum hagg
  exact ⟨⟨hsum, hagg⟩, h.1, h.2.2⟩

/-! ## Size rounding and `Position::fit` -/

theorem ratFloor_eq_floor (q : ℚ) : ratFloor q = ⌊q⌋ := by
  rw [ratFloor, Int.fdiv_eq_ediv q.num (by positivity), Rat.floor_def]

theorem ratCeil_eq_ceil (q : ℚ) : ratCeil q = ⌈q⌉ := by
  rw [ratCeil, ratFloor_eq_floor, Int.floor_neg, neg_neg]

theorem alookup_foldl_aset_not_mem {κ : Type} [DecidableEq κ]
    (f : κ × ℚ → ℚ) (s : κ) (m : List (κ × ℚ)) (hs : s ∉ m.map Prod.fst) :
    ∀ init : List (κ × ℚ),
      alookup s (m.foldl (fun acc sq => aset sq.1 (f sq) acc) init) =
        alookup s init := by
  induction m with
  | nil => intro init; simp
  | cons hd t ih =>
    intro init
    simp only [List.map_cons, List.mem_cons] at hs
    push_neg at hs
    have hne : ¬ hd.1 = s := fun he => hs.1 he.symm
    rw [List.foldl_cons, ih hs.2, alookup_aset, if_neg hne]

theorem alookup_foldl_aset_mem {κ : Type} [DecidableEq κ]
    (f : κ × ℚ → ℚ) (s : κ) (q : ℚ) (m : List (κ × ℚ))
    (hm : (m.map Prod.fst).Nodup) (hmem : (s, q) ∈ m) :
    ∀ init : List (κ × ℚ),
      alookup s (m.foldl (fun acc sq => aset sq.1 (f sq) acc) init) =
        some (f (s, q)) := by
  induction m with
  | nil => simp at hmem
  | cons hd t ih =>
    intro init
    simp only [List.map_cons, List.nodup_cons] at hm
    rcases List.mem_cons.mp hmem with he | ht
    · subst he
      rw [List.foldl_cons,
        alookup_foldl_aset_not_mem f s t hm.1 _, alookup_aset, if_pos rfl]
    · exact ih hm.2 ht _

theorem alookup_foldl_snap_not_mem {κ : Type} [DecidableEq κ]
    (g : κ → ℚ) (msz : κ → ℚ) (s : κ) (m : List (κ × ℚ))
    (hs : s ∉ m.map Prod.fst) :
    ∀ init : List (κ × ℚ),
      alookup s
          (m.foldl
            (fun acc sq => if |sq.2| < msz sq.1 then aset sq.1 (g sq.1) acc else acc)
            init) =
        alookup s init := by
  induction m with
  | nil => intro init; simp
  | cons hd t ih =>
    intro init
    simp only [List.map_cons, List.mem_cons] at hs
    push_neg at hs
    have hne : ¬ hd.1 = s := fun he => hs.1 he.symm
    rw [List.foldl_cons, ih hs.2]
    split_ifs
    · rw [alookup_aset, if_neg hne]
    · rfl

theorem alookup_foldl_snap_mem {κ : Type} [DecidableEq κ]
    (g : κ → ℚ) (msz : κ → ℚ) (s : κ) (q : ℚ) (m : List (κ × ℚ))
    (hm : (m.map Prod.fst).Nodup) (hmem : (s, q) ∈ m) :
    ∀ init : List (κ × ℚ),
      alookup s
          (m.foldl
            (fun acc sq => if |sq.2| < msz sq.1 then aset sq.1 (g sq.1) acc else acc)
            init) =
        if |q| < msz s then some (g s) else alookup s init := by
  induction m with
  | nil => simp at hmem
  | cons hd t ih =>
    intro init
    simp only [List.map_cons, List.nodup_cons] at hm
    rcases List.mem_cons.mp hmem with he | ht
    · subst he
      rw [List.foldl_cons, alookup_foldl_snap_not_mem g msz s t hm.1 _]
      split_ifs with hlt
      · rw [alookup_aset, if_pos rfl]
      · rfl
    · have hne : ¬ hd.1 = s := by
        intro he
        exact hm.1 (he ▸ List.mem_map.mpr ⟨(s, q), ht, rfl⟩)
      have hstep :
          alookup s (if |hd.2| < msz hd.1 then aset hd.1 (g hd.1) init else init) =
            alookup s init := by
        split_ifs
        · rw [alookup_aset, if_neg hne]
        · rfl
      rw [List.foldl_cons, ih hm.2 ht _, hstep]

/-- C8: `Position::fit` rounds each ordered quantity
(`next_size − current`) to a multiple of the market's `size_increment`
(rounding nothing when the increment is 0), snaps a symbol whose ordered
magnitude is below the market's `min_size` back to the current size,
leaves unordered symbols untouched, and returns the quote value, at the
current valuation, of the absolute rounding difference applied to
`next_size`. -/
theorem claim_C8 (p : Position) (mkts : Markets) (hwf : p.next_size.WF) :
    (∀ s q, (s, q) ∈ (p.next_size.sub p.current.bundle).entries →
        (p.fit mkts).2.next_size.get s =
          (if |q| < (mkts s).min_size then p.current.bundle.get s
           else p.current.bundle.get s + (mkts s).round_size q))
    ∧ (∀ s, s ∉ (p.next_size.sub p.current.bundle).keys →
        alookup s (p.fit mkts).2.next_size.entries =
          alookup s p.next_size.entries)
    ∧ (∀ s q, (mkts s).size_increment = 0 → (mkts s).round_size q = q)
    ∧ (∀ s q, (mkts s).size_increment ≠ 0 →
        ∃ k : ℤ, (mkts s).round_size q = (k : ℚ) * (mkts s).size_increment)
    ∧ (p.fit mkts).1 =
        (((p.fit mkts).2.next_size.sub p.next_size).abs).mulVal
          p.current.valuation := by
  have hobwf : (p.next_size.sub p.current.bundle).WF :=
    Bundle.sub_wf p.next_size p.current.bundle hwf
  have hfit : (p.fit mkts).2.next_size.entries =
      (p.next_size.sub p.current.bundle).entries.foldl
        (fun acc sq =>
          if |sq.2| < (mkts sq.1).min_size then
            aset sq.1 (aget sq.1 p.current.bundle.entries) acc
          else acc)
        ((p.next_size.sub p.current.bundle).entries.foldl
          (fun acc sq =>
            aset sq.1 (aget sq.1 p.current.bundle.entries
              + (mkts sq.1).round_size sq.2) acc)
          p.next_size.entries) := rfl
  refine ⟨?_, ?_, ?_, ?_, rfl⟩
  · intro s q hmem
    have h2 := alookup_foldl_snap_mem
      (fun t => aget t p.current.bundle.entries)
      (fun t => (mkts t).min_size) s q
      (p.next_size.sub p.current.bundle).entries hobwf hmem
      ((p.next_size.sub p.current.bundle).entries.foldl
        (fun acc sq =>
          aset sq.1 (aget sq.1 p.current.bundle.entries
            + (mkts sq.1).round_size sq.2) acc)
        p.next_size.entries)
    have h1 := alookup_foldl_aset_mem
      (fun sq => aget sq.1 p.current.bundle.entries
        + (mkts sq.1).round_size sq.2) s q
      (p.next_size.sub p.current.bundle).entries hobwf hmem
      p.next_size.entries
    rw [Bundle.get, aget, hfit, h2]
    split_ifs with hlt
    · simp [Bundle.get, aget]
    · rw [h1]
      simp [Bundle.get, aget]
  · intro s hs
    rw [hfit]
    rw [alookup_foldl_snap_not_mem (fun t => aget t p.current.bundle.entries)
      (fun t => (mkts t).min_size) s
      (p.next_size.sub p.current.bundle).entries hs]
    rw [alookup_foldl_aset_not_mem
      (fun sq => aget sq.1 p.current.bundle.entries + (mkts sq.1).round_size sq.2)
      s (p.next_size.sub p.current.bundle).entries hs]
  · intro s q h
    simp [MarketInfo.round_size, h]
  · intro s q h
    exact ⟨ratCeil (q / (mkts s).size_increment),
      by simp [MarketInfo.round_size, h]⟩

/-- Instantiation of `claim_C8`: ordering −7/10 against increment 1/2
and minimum size 6/10. -/
theorem claim_C8_witness :
    scnFitPos.next_size.WF
    ∧ (btcPerp, -7/10) ∈ (scnFitPos.next_size.sub scnFitPos.current.bundle).entries
    ∧ (scnFitPos.fit scnMarkets).2.next_size.get btcPerp =
        (if |(-7/10 : ℚ)| < (scnMarkets btcPerp).min_size
         then scnFitPos.current.bundle.get btcPerp
         else scnFitPos.current.bundle.get btcPerp
           + (scnMarkets btcPerp).round_size (-7/10))
    ∧ (scnMarkets btcPerp).round_size (-7/10) = -(1/2) := by
  have hwf : scnFitPos.next_size.WF := by
    simp [scnFitPos, Bundle.WF, Bundle.keys]
  have hmem : (btcPerp, -7/10) ∈
      (scnFitPos.next_size.sub scnFitPos.current.bundle).entries := by
    norm_num [scnFitPos, Bundle.sub]
  refine ⟨hwf, hmem, (claim_C8 scnFitPos scnMarkets hwf).1 btcPerp (-7/10) hmem, ?_⟩
  rw [MarketInfo.round_size]
  norm_num [scnMarkets, ratCeil_eq_ceil]
  rw [show ⌈(-(7/5) : ℚ)⌉ = -1 from by norm_num [Int.ceil_eq_iff]]
  norm_num

/-! ## `Exchange::execute` reconciliation -/

theorem okState_ok (u : Unit) (x : Wallet) :
    okState (some (Except.ok u, x)) = some x := rfl

theorem okState_error (e : WalletError) (x : Wallet) :
    okState (some (Except.error e, x)) = none := rfl

theorem resized_value_sum (ps : List Position) :
    ∀ rs : List ValuedBundle,
      (((ps.zip rs).map (fun pr => pr.1.resize pr.2) ++ ps.drop rs.length).map
          Position.value).sum =
        (ps.map Position.value).sum +
          ((ps.zip rs).map (fun pr => (pr.1.resize pr.2).value - pr.1.value)).sum := by
  induction ps with
  | nil => intro rs; simp
  | cons p pt ih =>
    intro rs
    cases rs with
    | nil => simp
    | cons r rt =>
      simp only [List.zip_cons_cons, List.map_cons, List.length_cons,
        List.drop_succ_cons, List.cons_append, List.sum_cons, ih rt]
      ring

theorem filter_value_sum (l : List Position) :
    ((l.filter (fun p => p.value != 0)).map Position.value).sum =
      (l.map Position.value).sum := by
  induction l with
  | nil => simp
  | cons p t ih =>
    by_cases h : p.value = 0
    · simp [List.filter_cons, h, ih]
    · simp [List.filter_cons, h, ih]

/-- C2: a successful `execute` moves the summed position-value change
`value_diff_sum` out of the wallet's quote balance (through
`reserve`+`withdraw` when positive, `deposit` when negative), so the sum
of position values plus the wallet's quote total is exactly conserved,
and every surviving position has non-zero value. -/
theorem claim_C2 (ps : List Position) (rs : List ValuedBundle) (w : Wallet)
    (quote : Asset) (ps' : List Position) (w' : Wallet)
    (h : Exchange.execute ps rs w quote = some (ps', w')) :
    w'.totalOf quote = w.totalOf quote -
        ((ps.zip rs).map (fun pr => (pr.1.resize pr.2).value - pr.1.value)).sum
    ∧ w'.freeOf quote = w.freeOf quote -
        ((ps.zip rs).map (fun pr => (pr.1.resize pr.2).value - pr.1.value)).sum
    ∧ (ps'.map Position.value).sum + w'.totalOf quote =
        (ps.map Position.value).sum + w.totalOf quote
    ∧ ∀ p ∈ ps', p.value ≠ 0 := by
  rw [Exchange.execute] at h
  set vds := ((ps.zip rs).map (fun pr => (pr.1.resize pr.2).value - pr.1.value)).sum
    with hvds
  set resized := (ps.zip rs).map (fun pr => pr.1.resize pr.2) ++ ps.drop rs.length
    with hresized
  have hwallet : ∃ w2, (if 0 < vds then
        (okState (Wallet.reserve vds quote w)).bind
          (fun w1 => okState (Wallet.withdraw vds quote w1))
      else if vds < 0 then Wallet.deposit (-vds) quote w
      else some w) = some w2
      ∧ ps' = resized.filter (fun p => p.value != 0) ∧ w' = w2 := by
    cases hcase : (if 0 < vds then
        (okState (Wallet.reserve vds quote w)).bind
          (fun w1 => okState (Wallet.withdraw vds quote w1))
      else if vds < 0 then Wallet.deposit (-vds) quote w
      else some w) with
    | none =>
      rw [hcase] at h
      exact Option.noConfusion h
    | some w2 =>
      rw [hcase] at h
      simp only [Option.map_some', Option.some.injEq, Prod.mk.injEq] at h
      exact ⟨w2, rfl, h.1.symm, h.2.symm⟩
  obtain ⟨w2, hw2, hps', hww⟩ := hwallet
  subst hww
  have hbal : w'.totalOf quote = w.totalOf quote - vds
      ∧ w'.freeOf quote = w.freeOf quote - vds := by
    split_ifs at hw2 with hpos hneg
    · -- reserve then withdraw
      by_cases hover : vds > w.freeOf quote
      · rw [Wallet.reserve, if_neg (by linarith), if_pos hover,
          okState_error] at hw2
        exact Option.noConfusion hw2
      · rw [Wallet.reserve, if_neg (by linarith), if_neg hover, okState_ok,
          Option.some_bind, Wallet.withdraw, if_neg (by linarith)] at hw2
        split_ifs at hw2 with hover2
        · rw [okState_error] at hw2
          exact Option.noConfusion hw2
        · rw [okState_ok] at hw2
          simp only [Option.some.injEq] at hw2
          subst hw2
          constructor <;>
            simp [Wallet.totalOf, Wallet.freeOf, aget_aadd, sub_eq_add_neg]
    · -- deposit of the negative difference
      rw [Wallet.deposit, if_neg (by linarith)] at hw2
      simp only [Option.some.injEq] at hw2
      subst hw2
      constructor <;>
        simp [Wallet.totalOf, Wallet.freeOf, aget_aadd, sub_eq_add_neg]
    · -- no value change
      have h0 : vds = 0 := le_antisymm (not_lt.mp hpos) (not_lt.mp hneg)
      simp only [Option.some.injEq] at hw2
      subst hw2
      simp [h0]
  refine ⟨hbal.1, hbal.2, ?_, ?_⟩
  · rw [hps', filter_value_sum, hresized, resized_value_sum, hbal.1]
    ring
  · intro p hp
    rw [hps'] at hp
    have := List.of_mem_filter hp
    simpa using this

/-- Instantiation of `claim_C2`: one position buying 1 `BTC-PERP` at 10
from a 1 000-unit wallet. -/
theorem claim_C2_witness :
    Exchange.execute [scnExecPos] [scnExecRes] scnWallet "USD"
        = some ([scnExecAfter], scnWalletAfter)
    ∧ scnWalletAfter.totalOf "USD" = scnWallet.totalOf "USD" -
        (([scnExecPos].zip [scnExecRes]).map
          (fun pr => (pr.1.resize pr.2).value - pr.1.value)).sum
    ∧ ∀ p ∈ [scnExecAfter], p.value ≠ 0 := by
  have h : Exchange.execute [scnExecPos] [scnExecRes] scnWallet "USD"
      = some ([scnExecAfter], scnWalletAfter) := by
    norm_num [Exchange.execute, scnExecPos, scnExecRes, scnExecAfter,
      scnWallet, scnWalletAfter, btcPerp, Position.order, Position.resize,
      Position.value, Position.pnl, Position.stepwise_added_pnl_value,
      Position.stepwise_added_delta_value, Position.stepwise_delta_sum,
      prefixSums, ValuedBundle.invert, Bundle.add, Bundle.sub, Bundle.abs,
      Bundle.neg, Bundle.mulVal, Wallet.reserve, Wallet.withdraw, okState,
      Wallet.totalOf, Wallet.freeOf, aset, aadd, aget, alookup,
      List.filter_cons]
  have hc := claim_C2 [scnExecPos] [scnExecRes] scnWallet "USD"
    [scnExecAfter] scnWalletAfter h
  exact ⟨h, hc.1, hc.2.2.2⟩

/-! ## ForwardFill adapter claims -/

/-- C4, counterexample to the claim as stated.  With `now = 100` and
`interval = 10`, the key time 80 is exactly two intervals in the past
("at least two intervals in the past" holds) and the cached candle's gap
`80 − 70 = 10` is within any reasonable `max_duration`, yet: an entirely
empty inner result with no cache entry returns the empty list, not a
single explicit `None` at the requested key; and a `None` entry at that
key is passed through unreplaced. -/
theorem claim_C4_counterexample :
    ForwardFill.get_candles 100 1000 [] scnKey [] = some ([], [])
    ∧ ([] : List (CandleKey × Option Candle)) ≠ [(scnKey, none)]
    ∧ 100 - scnKey.interval * 2 ≤ scnKey.time
    ∧ scnKey.time - 70 ≤ 1000
    ∧ alookup (scnKey.market, scnKey.interval) scnCache = some (70, scnCandle)
    ∧ ForwardFill.get_candles 100 1000 scnCache scnKey [(scnKey, none)]
        = some ([(scnKey, none)], scnCache)
    ∧ (some scnCandle : Option Candle) ≠ none := by
  refine ⟨?_, by simp, by norm_num [scnKey], by norm_num [scnKey], ?_, ?_, by simp⟩
  · norm_num [ForwardFill.get_candles, scnKey]
  · norm_num [scnKey, scnCache, alookup, btcPerp]
  · norm_num [ForwardFill.get_candles, fillLoop, scnKey, scnCache]

/-- C4, amended: through the forward-fill adapter, a `None` entry is
replaced by the last seen candle for its `(symbol, interval)` iff its
key time is more than two intervals in the past of `now` and the gap to
the last seen candle is at most `max_duration` (an entry at or after
`now − 2·interval` stops processing and is returned as is, together with
everything after it); a stale entry whose gap exceeds `max_duration`
fails fatally; present candles pass through and become the new last
seen; an entirely empty inner result with no cache entry yields a single
explicit `None` at the requested key when the key time is more than two
intervals in the past, and the empty list otherwise. -/
theorem claim_C4_amended (now maxDur : ℤ) (cache : FFCache) (key k : CandleKey)
    (t : ℤ) (c : Candle) (rest out : List (CandleKey × Option Candle))
    (cache' : FFCache) :
    (alookup (key.market, key.interval) cache = none →
      ForwardFill.get_candles now maxDur cache key [] =
        some ((if key.time < now - key.interval * 2 then [(key, none)] else []),
          cache))
    ∧ (key.time < now - key.interval * 2 →
        alookup (key.market, key.interval) cache = some (t, c) →
        key.time - t ≤ maxDur →
        ForwardFill.get_candles now maxDur cache key [] =
          some ([(key, some c)], cache))
    ∧ (key.time < now - key.interval * 2 →
        alookup (key.market, key.interval) cache = some (t, c) →
        maxDur < key.time - t →
        ForwardFill.get_candles now maxDur cache key [] = none)
    ∧ (rest ≠ [] → ForwardFill.get_candles now maxDur cache key rest =
        fillLoop now maxDur cache rest)
    ∧ (now - k.interval * 2 ≤ k.time →
        fillLoop now maxDur cache ((k, none) :: rest) =
          some ((k, none) :: rest, cache))
    ∧ (k.time < now - k.interval * 2 →
        alookup (k.market, k.interval) cache = some (t, c) →
        k.time - t ≤ maxDur →
        fillLoop now maxDur cache rest = some (out, cache') →
        fillLoop now maxDur cache ((k, none) :: rest) =
          some ((k, some c) :: out, cache'))
    ∧ (k.time < now - k.interval * 2 →
        alookup (k.market, k.interval) cache = some (t, c) →
        maxDur < k.time - t →
        fillLoop now maxDur cache ((k, none) :: rest) = none)
    ∧ (k.time < now - k.interval * 2 →
        alookup (k.market, k.interval) cache = none →
        fillLoop now maxDur cache rest = some (out, cache') →
        fillLoop now maxDur cache ((k, none) :: rest) =
          some ((k, none) :: out, cache'))
    ∧ (fillLoop now maxDur
          (aset (k.market, k.interval) (k.time, c) cache) rest = some (out, cache') →
        fillLoop now maxDur cache ((k, some c) :: rest) =
          some ((k, some c) :: out, cache')) := by
  refine ⟨?_, ?_, ?_, ?_, ?_, ?_, ?_, ?_, ?_⟩
  · intro hmiss
    rw [ForwardFill.get_candles]
    simp only [List.isEmpty_nil, if_true, hmiss]
    rcases lt_or_le key.time (now - key.interval * 2) with hlt | hle
    · rw [if_neg (by omega), if_pos hlt]
    · rw [if_pos (by omega), if_neg (by omega)]
  · intro hpast hhit hgap
    rw [ForwardFill.get_candles]
    simp only [List.isEmpty_nil, if_true, hhit]
    rw [if_neg (by omega), if_pos hgap]
  · intro hpast hhit hgap
    rw [ForwardFill.get_candles]
    simp only [List.isEmpty_nil, if_true, hhit]
    rw [if_neg (by omega), if_neg (by omega)]
  · intro hne
    rw [ForwardFill.get_candles]
    rw [if_neg (by simpa [List.isEmpty_iff] using hne)]
  · intro hrecent
    rw [fillLoop, if_pos hrecent]
  · intro hpast hhit hgap hrest
    rw [fillLoop, if_neg (by omega), hhit]
    simp only [if_pos hgap, hrest, Option.map_some']
  · intro hpast hhit hgap
    rw [fillLoop, if_neg (by omega), hhit]
    dsimp only
    rw [if_neg (show ¬ k.time - t ≤ maxDur by omega)]
  · intro hpast hmiss hrest
    rw [fillLoop, if_neg (by omega), hmiss, hrest]
    rfl
  · intro hrest
    rw [fillLoop, hrest]
    rfl

/-- Instantiation of `claim_C4_amended`: a key 7 intervals in the past
with an empty inner result is forward filled from the cache. -/
theorem claim_C4_witness :
    (scnOldKey.time < 100 - scnOldKey.interval * 2
      ∧ alookup (scnOldKey.market, scnOldKey.interval) scnCache
          = some (70, scnCandle)
      ∧ scnOldKey.time - 70 ≤ 1000)
    ∧ ForwardFill.get_candles 100 1000 scnCache scnOldKey [] =
        some ([(scnOldKey, some scnCandle)], scnCache) := by
  have h1 : scnOldKey.time < 100 - scnOldKey.interval * 2 := by
    norm_num [scnOldKey]
  have h2 : alookup (scnOldKey.market, scnOldKey.interval) scnCache
      = some (70, scnCandle) := by
    norm_num [scnOldKey, scnCache, alookup, btcPerp]
  have h3 : scnOldKey.time - 70 ≤ 1000 := by norm_num [scnOldKey]
  exact ⟨⟨h1, h2, h3⟩,
    (claim_C4_amended 100 1000 scnCache scnOldKey scnOldKey 70 scnCandle
      [] [] scnCache).2.1 h1 h2 h3⟩

end Bazaar
